import Mathlib

/-!
# Verification of the gaming_chat_bot retrieval / quota core

Shallow embedding, in Lean 4, of the parts of the repository that the
frozen claims are about, together with theorems settling each claim.

* `internal/ratelimit/limiter.go` — `CheckLimit` (two-tier quota governor)
* the Supabase SQL schema — `search_similar_messages`, `increment_daily_limit`
* `internal/storage/chat_messages.go` — `SearchSimilarMessages`
* `internal/storage` — `GetUserMessageCounts`, `GetMostActiveUser`,
  `IncrementLimit`
* `internal/rag/searcher.go` — `FormatContext` and its helpers
* `internal/bot/handler.go` — `handleMention` generation/commit ordering,
  `isMentioned`, `utf16RangeToByteRange`, `extractEntityText`
* `internal/embeddings/client.go` — `processBatch` retry loop
* the history-import script and `cmd/bot/main.go` — `normalizeChatID`

Machine integers are modelled as `Int` with explicit two's-complement
wrapping where Go's `int64` arithmetic can overflow.  Clock readings,
cosine distance (a float computation performed by the database) and the
`%.2f` float rendering are taken as explicit parameters of the embedded
functions; everything else is translated directly from the source.
-/

namespace GamingChatBot

/-! ## Data model -/

/-- `models.ModelPro` (`internal/models`). -/
def ModelPro : String := "gemini-2.5-pro"

/-- `models.ModelFlash` (`internal/models`). -/
def ModelFlash : String := "gemini-2.0-flash"

/-- A row of the `chat_messages` table (also used for `models.ChatMessage`).
`embedding` is absent until the row is indexed; `createdAt` is a Unix
timestamp in seconds; `similarity` is the score column filled in by
`search_similar_messages` (zero on freshly stored rows). -/
structure StoredMessage where
  id : Int := 0
  messageId : Int := 0
  userId : Int := 0
  username : String := ""
  firstName : String := ""
  chatId : Int := 0
  messageText : String := ""
  embedding : Option (List ℚ) := none
  indexed : Bool := false
  createdAt : Int := 0
  similarity : ℚ := 0
deriving DecidableEq, Repr

/-- A row of the `daily_limits` table. -/
structure DailyLimitRow where
  userId : Int
  date : String
  proRequestsCount : Int
  flashRequestsCount : Int
deriving DecidableEq, Repr

/-- `models.UserMessageCount`. -/
structure UserMessageCount where
  userId : Int
  username : String
  firstName : String
  messageCount : Int
deriving DecidableEq, Repr

/-! ## Two-tier quota governor: `ratelimit.CheckLimit` -/

/-- `models.RateLimitResult` restricted to the fields `CheckLimit` computes;
the user-facing `Message` string is time-dependent and not needed by the
claims, so it is omitted. -/
structure RateLimitResult where
  allowed : Bool
  modelToUse : String
  proRemaining : Int
  flashRemaining : Int
deriving DecidableEq, Repr

/-- Core decision of `Limiter.CheckLimit` (`internal/ratelimit/limiter.go`),
given the configured caps and the counters `(proCount, flashCount)` read
from the store for `(user, today)`. -/
def CheckLimit (proDailyLimit flashDailyLimit proCount flashCount : Int) :
    RateLimitResult :=
  let proRemaining := proDailyLimit - proCount
  let flashRemaining := flashDailyLimit - flashCount
  if proRemaining ≤ 0 ∧ flashRemaining ≤ 0 then
    { allowed := false, modelToUse := "", proRemaining := 0, flashRemaining := 0 }
  else
    { allowed := true
      modelToUse := if proRemaining > 0 then ModelPro else ModelFlash
      proRemaining := proRemaining
      flashRemaining := flashRemaining }

/-! ## Chat-scope id normalization: `normalizeChatID` -/

/-- Two's-complement wrap of an integer into the signed 64-bit range,
modelling Go `int64` arithmetic overflow. -/
def wrapInt64 (n : Int) : Int := (n + 2 ^ 63) % 2 ^ 64 - 2 ^ 63

/-- `normalizeChatID` (import script / `cmd/bot/main.go`): negative ids pass
through; positive ids above one billion are converted to the Bot API form
`-1000000000000 - chatID` (computed in wrapping `int64` arithmetic); other
ids pass through. -/
def normalizeChatID (chatID : Int) : Int :=
  if chatID < 0 then chatID
  else if chatID > 1000000000 then wrapInt64 (-1000000000000 - chatID)
  else chatID

/-! ## Daily-limit increment: SQL `increment_daily_limit` and Go
`storage.IncrementLimit` -/

/-- The upsert performed by the SQL function `increment_daily_limit`:
insert the row at `(1,0)` / `(0,1)`, or on conflict bump the counter named
by `p_model_type` (`'pro'` bumps pro, anything else bumps flash).  The
database is modelled as a list of rows; the unique key `(user_id, date)`
makes at most one row match. -/
def increment_daily_limit (db : List DailyLimitRow)
    (userId : Int) (date : String) (modelType : String) : List DailyLimitRow :=
  match db with
  | [] =>
      if modelType = "pro" then
        [{ userId := userId, date := date, proRequestsCount := 1, flashRequestsCount := 0 }]
      else
        [{ userId := userId, date := date, proRequestsCount := 0, flashRequestsCount := 1 }]
  | row :: rest =>
      if row.userId = userId ∧ row.date = date then
        if modelType = "pro" then
          { row with proRequestsCount := row.proRequestsCount + 1 } :: rest
        else
          { row with flashRequestsCount := row.flashRequestsCount + 1 } :: rest
      else
        row :: increment_daily_limit rest userId date modelType

/-- `storage.Client.IncrementLimit`: maps the model type to the SQL tier
name — `"pro"` exactly when the model equals `models.ModelPro`, `"flash"`
for every other string — then calls `increment_daily_limit`.  The Go method
returns no error on any tier name. -/
def IncrementLimit (db : List DailyLimitRow)
    (userId : Int) (date : String) (modelType : String) : List DailyLimitRow :=
  let modelTypeStr := if modelType = ModelPro then "pro" else "flash"
  increment_daily_limit db userId date modelTypeStr

/-- Counters read back for `(userId, date)`; a missing row yields `(0, 0)`
(SQL `get_daily_limit`). -/
def getDailyCounts (db : List DailyLimitRow) (userId : Int) (date : String) :
    Int × Int :=
  match db with
  | [] => (0, 0)
  | row :: rest =>
      if row.userId = userId ∧ row.date = date then
        (row.proRequestsCount, row.flashRequestsCount)
      else getDailyCounts rest userId date

/-! ## Most active user: `storage.GetUserMessageCounts` and
`storage.GetMostActiveUser`

`GetUserMessageCounts` accumulates counts in a Go map and then converts the
map to a slice by ranging over it; the iteration order of a Go map is
unspecified.  The embedding below enumerates users in order of first
appearance in the day's message list, which is one admissible iteration
order; no theorem below depends on which admissible order is picked except
the concrete counterexample, which exhibits one. -/

/-- One step of the counting loop of `GetUserMessageCounts`: bump the entry
for the message's author, or create it at count 1 with the author's
username/first name. -/
def bumpUserCount (acc : List UserMessageCount) (m : StoredMessage) :
    List UserMessageCount :=
  match acc with
  | [] => [{ userId := m.userId, username := m.username,
             firstName := m.firstName, messageCount := 1 }]
  | c :: rest =>
      if c.userId = m.userId then
        { c with messageCount := c.messageCount + 1 } :: rest
      else
        c :: bumpUserCount rest m

/-- `storage.GetUserMessageCounts` applied to the day's messages (the
store-side date filtering is outside this function). -/
def GetUserMessageCounts (messages : List StoredMessage) :
    List UserMessageCount :=
  messages.foldl bumpUserCount []

/-- The scan of `storage.GetMostActiveUser` over the counts slice: start
from the first element and replace the candidate only on a strictly larger
count. -/
def mostActiveScan (first : UserMessageCount) (rest : List UserMessageCount) :
    UserMessageCount :=
  rest.foldl
    (fun mostActive c =>
      if c.messageCount > mostActive.messageCount then c else mostActive)
    first

/-- `storage.GetMostActiveUser`: `none` when the day has no messages. -/
def GetMostActiveUser (messages : List StoredMessage) :
    Option UserMessageCount :=
  match GetUserMessageCounts messages with
  | [] => none
  | c :: rest => some (mostActiveScan c rest)

/-- Number of messages authored by `a` in the list. -/
def countMessagesBy (a : Int) (messages : List StoredMessage) : Int :=
  ((messages.filter (fun m => m.userId = a)).length : Int)

/-- Count recorded for author `a` in a counts slice (first matching entry;
0 when absent). -/
def countOf (acc : List UserMessageCount) (a : Int) : Int :=
  match acc with
  | [] => 0
  | c :: rest => if c.userId = a then c.messageCount else countOf rest a

/-! ## Similarity search: SQL `search_similar_messages` and Go
`storage.SearchSimilarMessages`

`<=>` is pgvector's cosine-distance operator, a float computation done by
the database; it enters the model as the explicit parameter `dist`. -/

/-- The WHERE clause of `search_similar_messages`. -/
def searchMatches (dist : List ℚ → List ℚ → ℚ) (queryEmbedding : List ℚ)
    (similarityThreshold : ℚ) (targetChatId : Option Int)
    (cm : StoredMessage) : Bool :=
  cm.indexed && cm.embedding.isSome
    && (match targetChatId with
        | none => true
        | some t => cm.chatId == t)
    && decide (similarityThreshold ≤ 1 - dist (cm.embedding.getD []) queryEmbedding)

/-- SQL `search_similar_messages`: filter by the WHERE clause, order by
cosine distance ascending, cap at `match_count`, and fill the `similarity`
column with `1 - distance`.  (The SQL projects a subset of the columns; the
model keeps whole rows, which the Go side decodes back into
`models.ChatMessage` values anyway.) -/
def search_similar_messages (dist : List ℚ → List ℚ → ℚ)
    (table : List StoredMessage) (queryEmbedding : List ℚ)
    (similarityThreshold : ℚ) (matchCount : ℕ) (targetChatId : Option Int) :
    List StoredMessage :=
  let filtered := table.filter
    (searchMatches dist queryEmbedding similarityThreshold targetChatId)
  let ordered := filtered.insertionSort
    (fun a b =>
      dist (a.embedding.getD []) queryEmbedding
        ≤ dist (b.embedding.getD []) queryEmbedding)
  (ordered.take matchCount).map
    (fun cm => { cm with similarity := 1 - dist (cm.embedding.getD []) queryEmbedding })

/-- `storage.Client.SearchSimilarMessages`: the `target_chat_id` parameter
is added to the RPC call only when `chatID != 0`; when it is omitted the
SQL default `NULL` applies and the chat filter disappears. -/
def SearchSimilarMessages (dist : List ℚ → List ℚ → ℚ)
    (table : List StoredMessage) (queryEmbedding : List ℚ)
    (threshold : ℚ) (limit : ℕ) (chatID : Int) : List StoredMessage :=
  search_similar_messages dist table queryEmbedding threshold limit
    (if chatID ≠ 0 then some chatID else none)

/-! ## Context rendering: `rag.FormatContext` and helpers
(`internal/rag/searcher.go`)

The wall clock read by `formatTimeAgo` enters as the parameter `now`
(Unix seconds), and the `%.2f` rendering of the float similarity enters
as the parameter `fmtSim`.  Go truncates the float quotients
`diff.Minutes()` etc. toward zero, which `Int.tdiv` of the second counts
reproduces. -/

/-- `pluralizeRu`: Russian plural form selection (Go `abs(n) % 100`). -/
def pluralizeRu (n : Int) (form1 form2 form5 : String) : String :=
  let n1 := n.natAbs % 100
  if 11 ≤ n1 ∧ n1 ≤ 19 then form5
  else
    let n2 := n1 % 10
    if n2 = 1 then form1
    else if 2 ≤ n2 ∧ n2 ≤ 4 then form2
    else form5

/-- `formatTimeAgo` with `now` and the message time in Unix seconds. -/
def formatTimeAgo (now t : Int) : String :=
  let diff := now - t
  if diff < 60 then "только что"
  else if diff < 3600 then
    let minutes := diff.tdiv 60
    toString minutes ++ " " ++ pluralizeRu minutes "минута" "минуты" "минут" ++ " назад"
  else if diff < 86400 then
    let hours := diff.tdiv 3600
    toString hours ++ " " ++ pluralizeRu hours "час" "часа" "часов" ++ " назад"
  else if diff < 604800 then
    let days := diff.tdiv 86400
    toString days ++ " " ++ pluralizeRu days "день" "дня" "дней" ++ " назад"
  else if diff < 2592000 then
    let weeks := diff.tdiv 604800
    toString weeks ++ " " ++ pluralizeRu weeks "неделя" "недели" "недель" ++ " назад"
  else if diff < 31536000 then
    let months := diff.tdiv 2592000
    toString months ++ " " ++ pluralizeRu months "месяц" "месяца" "месяцев" ++ " назад"
  else
    let years := diff.tdiv 31536000
    toString years ++ " " ++ pluralizeRu years "год" "года" "лет" ++ " назад"

/-- `formatAuthor`: first non-empty of display name, `@handle`, `User_<id>`. -/
def formatAuthor (msg : StoredMessage) : String :=
  if msg.firstName ≠ "" then msg.firstName
  else if msg.username ≠ "" then "@" ++ msg.username
  else "User_" ++ toString msg.userId

/-- The header line written first by `FormatContext`. -/
def contextHeader : String := "РЕЛЕВАНТНАЯ ИНФОРМАЦИЯ ИЗ ИСТОРИИ ЧАТА:\n\n"

/-- The trailing line appended when `n` relevant rows are omitted. -/
def omittedMarker (n : ℕ) : String :=
  "\n[... еще " ++ toString n ++ " релевантных сообщений не показаны из-за ограничения длины]\n"

/-- One formatted entry of the context block (the `fmt.Sprintf` inside the
loop of `FormatContext`), for the message at zero-based index `i`. -/
def contextEntry (fmtSim : ℚ → String) (now : Int) (i : ℕ)
    (msg : StoredMessage) : String :=
  toString (i + 1) ++ ". " ++ formatAuthor msg ++ " (" ++ formatTimeAgo now msg.createdAt
    ++ ", релевантность: " ++ fmtSim msg.similarity ++ "): \"" ++ msg.messageText ++ "\"\n"

/-- The accumulation loop of `FormatContext`: write entries while the
accumulated entry rune count stays within `maxLength`; at the first entry
that would exceed it, write the omitted-rows marker instead and stop.  At
that point `len(messages) - i` equals the length of the unprocessed
suffix. -/
def contextLoop (fmtSim : ℚ → String) (now : Int) (maxLength : ℕ) :
    List StoredMessage → ℕ → ℕ → String
  | [], _, _ => ""
  | msg :: rest, i, totalLength =>
      let entry := contextEntry fmtSim now i msg
      if totalLength + entry.length > maxLength then
        omittedMarker (msg :: rest).length
      else
        entry ++ contextLoop fmtSim now maxLength rest (i + 1) (totalLength + entry.length)

/-- The omitted-rows marker actually produced by the loop (empty when every
entry fits). -/
def contextMarker (fmtSim : ℚ → String) (now : Int) (maxLength : ℕ) :
    List StoredMessage → ℕ → ℕ → String
  | [], _, _ => ""
  | msg :: rest, i, totalLength =>
      let entry := contextEntry fmtSim now i msg
      if totalLength + entry.length > maxLength then
        omittedMarker (msg :: rest).length
      else
        contextMarker fmtSim now maxLength rest (i + 1) (totalLength + entry.length)

/-- `Searcher.FormatContext`: empty input renders as the empty string;
otherwise header, the accumulated entries (or the marker) and a final
newline. -/
def FormatContext (fmtSim : ℚ → String) (now : Int) (maxLength : ℕ)
    (messages : List StoredMessage) : String :=
  if messages.isEmpty then ""
  else contextHeader ++ contextLoop fmtSim now maxLength messages 0 0 ++ "\n"

/-! ## Orchestrator answer path: `bot.handleMention`
(`internal/bot/handler.go`, generation through reply)

The observable effects of the tail of `handleMention` — from the
`llmClient.GenerateResponse` call onward — as an action trace.  Reads of
the store and the preceding quota check are not part of the modelled
suffix; log failures only log again and are absorbed. -/

inductive BotAction where
  | generateResponse
  | sendErrorMessage
  | logRequest (errorMessage : String)
  | incrementUsage (modelType : String)
  | sendMessage (text : String)
deriving DecidableEq, Repr

/-- Trace of the tail of `handleMention` given the outcome of
`GenerateResponse`: a failed generation sends a user-facing error and logs
the attempt with the error message, and returns without incrementing; a
successful one increments usage for the chosen model, logs with an empty
error message and sends the reply. -/
def handleMentionGeneration (modelToUse : String)
    (llmResp : Except String String) : List BotAction :=
  BotAction.generateResponse ::
    match llmResp with
    | .error e => [BotAction.sendErrorMessage, BotAction.logRequest e]
    | .ok text =>
        [BotAction.incrementUsage modelToUse, BotAction.logRequest "",
         BotAction.sendMessage text]

/-- Effect of one action on the `daily_limits` table: only
`incrementUsage` touches it, via `storage.IncrementLimit`. -/
def applyBotAction (userId : Int) (date : String)
    (db : List DailyLimitRow) : BotAction → List DailyLimitRow
  | BotAction.incrementUsage m => IncrementLimit db userId date m
  | _ => db

/-- The `daily_limits` table after running a trace. -/
def quotaAfter (userId : Int) (date : String) (db : List DailyLimitRow)
    (actions : List BotAction) : List DailyLimitRow :=
  actions.foldl (applyBotAction userId date) db

/-! ## Embedding retry loop: `embeddings.processBatch`
(`internal/embeddings/client.go`)

The external `BatchEmbedContents` call and the context are modelled as an
environment: `api n` is the outcome of the call made on loop iteration
`n`, and `ctxDone n` tells whether the context is already cancelled when
the backoff select before iteration `n` runs (iterations are numbered as
in the source, `attempt = 0..3`; a vector is invalid when nil or empty,
modelled as the empty list). -/

inductive EmbedApiOutcome where
  | failure (err : String)
  | success (embeddings : List (List ℚ))

structure EmbedEnv where
  api : ℕ → EmbedApiOutcome
  ctxDone : ℕ → Bool

inductive EmbedError where
  | ctxCancelled
  | emptyEmbedding
  | countMismatch (expected got : ℕ)
  | exhausted (lastErr : String)
deriving DecidableEq, Repr

/-- Observable outcome of `processBatch`: the returned value, the backoff
waits that ran to completion (in seconds) and the number of
`BatchEmbedContents` calls made. -/
structure EmbedTrace where
  result : Except EmbedError (List (List ℚ))
  waits : List ℕ
  attempts : ℕ

/-- The `for attempt := 0; attempt <= maxRetries; attempt++` loop of
`processBatch`, run over the remaining iteration indices.  Before every
iteration other than the first, the code selects between context
cancellation (returning `ctx.Err()` at once) and a completed backoff of
`1<<(attempt-1)` seconds.  An api failure records the error and continues;
an empty vector or a count mismatch returns at once without retrying; a
valid result returns it. -/
def processBatchLoop (env : EmbedEnv) (texts : List String) :
    List ℕ → Option String → List ℕ → ℕ → EmbedTrace
  | [], lastErr, waits, attempts =>
      ⟨.error (.exhausted (lastErr.getD "")), waits, attempts⟩
  | attempt :: rest, _lastErr, waits, attempts =>
      if attempt > 0 ∧ env.ctxDone attempt then
        ⟨.error .ctxCancelled, waits, attempts⟩
      else
        let waits' := if attempt > 0 then waits ++ [2 ^ (attempt - 1)] else waits
        match env.api attempt with
        | .failure e => processBatchLoop env texts rest (some e) waits' (attempts + 1)
        | .success embeddings =>
            if embeddings.any (fun emb => emb.isEmpty) then
              ⟨.error .emptyEmbedding, waits', attempts + 1⟩
            else if embeddings.length ≠ texts.length then
              ⟨.error (.countMismatch texts.length embeddings.length), waits', attempts + 1⟩
            else
              ⟨.ok embeddings, waits', attempts + 1⟩

/-- `processBatch` with `maxRetries = 3`: the loop body runs for
`attempt = 0, 1, 2, 3`. -/
def processBatch (env : EmbedEnv) (texts : List String) : EmbedTrace :=
  processBatchLoop env texts [0, 1, 2, 3] none [] 0

/-! ## Mention detection: `isMentioned`, `utf16RangeToByteRange`,
`extractEntityText` (`internal/bot/handler.go`)

Strings are modelled as lists of code points (`List Char`), with byte
positions computed from `Char.utf8Size` exactly as the Go `range` loop
does.  Case-insensitive comparison (`strings.EqualFold` /
`strings.ToLower`) is modelled by ASCII lowering, which coincides with Go
on the ASCII handles the claims are about. -/

/-- UTF-16 code units of one code point, as computed inside
`utf16RangeToByteRange` (`units = 1`, `2` when `r >= 0x10000`). -/
def utf16Units (c : Char) : ℕ := if c.toNat ≥ 0x10000 then 2 else 1

/-- UTF-16 length of a string (1 unit per BMP code point, 2 per
supplementary-plane code point). -/
def utf16Len (s : List Char) : ℕ := (s.map utf16Units).sum

/-- UTF-8 byte length of a string (Go `len(s)`). -/
def utf8Len (s : List Char) : ℕ := (s.map Char.utf8Size).sum

/-- The `for _, r := range s` loop of `utf16RangeToByteRange`, carrying
`currentUTF16`, `byteIndex` and the still-unset (`none` for Go's `-1`)
`startByte`.  Returns `(startByte, endByte, currentUTF16, byteIndex)` as
of loop exit; `endByte ≠ none` means the loop broke. -/
def utf16Scan (targetStart targetEnd : ℕ) :
    List Char → ℕ → ℕ → Option ℕ → Option ℕ × Option ℕ × ℕ × ℕ
  | [], currentUTF16, byteIndex, startByte =>
      (startByte, none, currentUTF16, byteIndex)
  | c :: rest, currentUTF16, byteIndex, startByte =>
      let startByte' :=
        if startByte = none ∧ currentUTF16 ≥ targetStart then some byteIndex
        else startByte
      if startByte' ≠ none ∧ currentUTF16 ≥ targetEnd then
        (startByte', some byteIndex, currentUTF16, byteIndex)
      else
        utf16Scan targetStart targetEnd rest (currentUTF16 + utf16Units c)
          (byteIndex + c.utf8Size) startByte'

/-- `utf16RangeToByteRange`: translate a UTF-16 `(offset, length)` range
into UTF-8 byte positions, `(-1, -1)` when the range cannot be located. -/
def utf16RangeToByteRange (s : List Char) (offset length : Int) : Int × Int :=
  if offset < 0 ∨ length < 0 then (-1, -1)
  else
    let targetStart := offset.toNat
    let targetEnd := offset.toNat + length.toNat
    match utf16Scan targetStart targetEnd s 0 0 none with
    | (startByte, endByte, currentUTF16, byteIndex) =>
        let startByte' :=
          match startByte with
          | some v => some v
          | none => if targetStart = currentUTF16 then some byteIndex else none
        match startByte' with
        | none => (-1, -1)
        | some sb =>
            let eb :=
              match endByte with
              | some v => v
              | none => if targetEnd ≤ currentUTF16 then byteIndex else utf8Len s
            ((sb : Int), (eb : Int))

/-- Byte-range slicing `text[startB:endB]` over the code-point model,
walking the string with the UTF-8 byte width of each code point.  The byte
positions produced by `utf16RangeToByteRange` always sit on code-point
boundaries, where this agrees with Go's byte slicing (a code point only
partly inside the range — impossible at boundary positions — is
dropped). -/
def byteSlice : List Char → ℕ → ℕ → ℕ → List Char
  | [], _, _, _ => []
  | c :: rest, pos, startB, endB =>
      if endB ≤ pos then []
      else if startB ≤ pos ∧ pos + c.utf8Size ≤ endB then
        c :: byteSlice rest (pos + c.utf8Size) startB endB
      else
        byteSlice rest (pos + c.utf8Size) startB endB

/-- `extractEntityText`: locate the entity's byte range and slice it out;
out-of-range or unlocatable ranges give the empty string. -/
def extractEntityText (text : List Char) (offset length : Int) : List Char :=
  let r := utf16RangeToByteRange text offset length
  if r.1 = -1 ∨ r.2 = -1 ∨ r.1 ≥ r.2 ∨ r.1 ≥ (utf8Len text : Int) then []
  else
    let endB := if r.2 > (utf8Len text : Int) then (utf8Len text : Int) else r.2
    byteSlice text 0 r.1.toNat endB.toNat

/-- ASCII lowering of one code point (model of Go case folding on the
ASCII range). -/
def toLowerAsciiChar (c : Char) : Char :=
  if 'A' ≤ c ∧ c ≤ 'Z' then Char.ofNat (c.toNat + 32) else c

/-- Model of `strings.ToLower` (ASCII range). -/
def toLowerAscii (s : List Char) : List Char := s.map toLowerAsciiChar

/-- Model of `strings.EqualFold` (ASCII range). -/
def equalFold (a b : List Char) : Bool := toLowerAscii a == toLowerAscii b

/-- Does `s` start with `sub`? (helper for the substring search). -/
def startsWith : List Char → List Char → Bool
  | _, [] => true
  | [], _ :: _ => false
  | c :: s, d :: t => c == d && startsWith s t

/-- Model of `strings.Contains s sub`. -/
def containsSub : List Char → List Char → Bool
  | [], sub => sub.isEmpty
  | c :: rest, sub => startsWith (c :: rest) sub || containsSub rest sub

/-- A Telegram message entity (`tgbotapi.MessageEntity`): `entityType` is
the Go `Type` field; `userId`/`userName` model the embedded `User` record
of a `text_mention` (absent otherwise). -/
structure MessageEntity where
  entityType : String
  offset : Int
  length : Int
  userId : Option Int := none
  userName : List Char := []

/-- The fields of `tgbotapi.Message` that `isMentioned` reads. -/
structure TgMessage where
  text : List Char
  entities : List MessageEntity

/-- `Bot.isMentioned`: scan the typed entities for a `mention` whose text
case-folds to `@<handle>` or a `text_mention` carrying the bot's username
or id; fall back to a case-insensitive substring search of the whole
text. -/
def isMentioned (selfId : Int) (telegramUsername : List Char)
    (message : TgMessage) : Bool :=
  let username := toLowerAscii ('@' :: telegramUsername)
  (message.entities.any fun entity =>
    if entity.entityType = "mention" then
      equalFold (extractEntityText message.text entity.offset entity.length) username
    else if entity.entityType = "text_mention" then
      match entity.userId with
      | some uid =>
          (decide (entity.userName ≠ []) && equalFold ('@' :: entity.userName) username)
            || uid == selfId
      | none => false
    else false)
  || containsSub (toLowerAscii message.text) username

end GamingChatBot

namespace GamingChatBot

/-! # Theorems -/

/-- Helper: the denial condition of `CheckLimit`. -/
theorem checkLimit_allowed_iff (A B a b : Int) :
    (CheckLimit A B a b).allowed = false ↔ (A ≤ a ∧ B ≤ b) := by
  unfold CheckLimit
  by_cases h : A - a ≤ 0 ∧ B - b ≤ 0
  · simp only [if_pos h]
    constructor
    · intro _; omega
    · intro _; trivial
  · simp only [if_neg h]
    constructor
    · intro hfalse; exact absurd hfalse (by simp)
    · intro hab; exact absurd (by omega : A - a ≤ 0 ∧ B - b ≤ 0) h

/-- **C1.**  For every author and civil day, with counters `(a, b)` read
from the store and caps `(A, B)`: the check denies exactly when `a ≥ A`
and `b ≥ B`; it chooses tier-A (`ModelPro`) exactly when `a < A`; and it
chooses tier-B (`ModelFlash`) exactly when `a ≥ A` and `b < B`. -/
theorem checkLimit_correct (A B a b : Int) :
    ((CheckLimit A B a b).allowed = false ↔ (A ≤ a ∧ B ≤ b))
    ∧ ((CheckLimit A B a b).allowed = true
          ∧ (CheckLimit A B a b).modelToUse = ModelPro ↔ a < A)
    ∧ ((CheckLimit A B a b).allowed = true
          ∧ (CheckLimit A B a b).modelToUse = ModelFlash ↔ (A ≤ a ∧ b < B)) := by
  refine ⟨checkLimit_allowed_iff A B a b, ?_, ?_⟩ <;>
      unfold CheckLimit <;>
      by_cases h : A - a ≤ 0 ∧ B - b ≤ 0 <;>
      by_cases hp : A - a > 0
  · simp only [if_pos h]
    exact ⟨fun hc => absurd hc.1 (by simp), fun hab => absurd hab (by omega)⟩
  · simp only [if_pos h]
    exact ⟨fun hc => absurd hc.1 (by simp), fun hab => absurd hab (by omega)⟩
  · simp only [if_neg h, if_pos hp]
    exact ⟨fun _ => by omega, fun _ => ⟨trivial, trivial⟩⟩
  · simp only [if_neg h, if_neg hp]
    refine ⟨fun hc => absurd hc.2 (by decide), fun hab => absurd hab (by omega)⟩
  · simp only [if_pos h]
    exact ⟨fun hc => absurd hc.1 (by simp), fun hab => absurd hab.2 (by omega)⟩
  · simp only [if_pos h]
    exact ⟨fun hc => absurd hc.1 (by simp), fun hab => absurd hab.2 (by omega)⟩
  · simp only [if_neg h, if_pos hp]
    exact ⟨fun hc => absurd hc.2 (by decide), fun hab => absurd hab.1 (by omega)⟩
  · simp only [if_neg h, if_neg hp]
    exact ⟨fun _ => by omega, fun _ => ⟨trivial, trivial⟩⟩

/-- Helper: `wrapInt64` is the identity on the signed 64-bit range. -/
theorem wrapInt64_eq_self (n : Int) (h1 : -2 ^ 63 ≤ n) (h2 : n < 2 ^ 63) :
    wrapInt64 n = n := by
  unfold wrapInt64
  omega

/-- **C7 (counterexample).**  At `x = 2^63 - 1` (a valid signed 64-bit
id), the conversion `-1000000000000 - x` overflows `int64`: the result is
positive rather than `-(10^12 + x)`, and normalization is not idempotent
there. -/
theorem normalizeChatID_claim_counterexample :
    normalizeChatID 9223372036854775807 = 9223371036854775809
    ∧ ¬ normalizeChatID 9223372036854775807 < 0
    ∧ normalizeChatID 9223372036854775807 ≠ -(10 ^ 12 + 9223372036854775807)
    ∧ normalizeChatID (normalizeChatID 9223372036854775807)
        ≠ normalizeChatID 9223372036854775807 := by
  refine ⟨?_, ?_, ?_, ?_⟩ <;> decide

/-- **C7 (amended).**  On every signed 64-bit id `x` for which the
conversion does not overflow (`x ≤ 2^63 - 10^12`; overflow occurs only in
the top `10^12` ids): normalization is idempotent, already-negative ids
pass through unchanged, and every non-negative id exceeding `10^9` maps to
`-(10^12 + x)`, which is negative. -/
theorem normalizeChatID_amended (x : Int)
    (h1 : -2 ^ 63 ≤ x) (h2 : x ≤ 2 ^ 63 - 10 ^ 12) :
    normalizeChatID (normalizeChatID x) = normalizeChatID x
    ∧ (x < 0 → normalizeChatID x = x)
    ∧ (0 ≤ x → 10 ^ 9 < x →
        normalizeChatID x = -(10 ^ 12 + x) ∧ normalizeChatID x < 0) := by
  have key : 10 ^ 9 < x → normalizeChatID x = -(10 ^ 12 + x) := by
    intro hx
    have hx0 : ¬ x < 0 := by omega
    unfold normalizeChatID
    rw [if_neg hx0, if_pos (by omega : x > 1000000000)]
    rw [wrapInt64_eq_self (-1000000000000 - x) (by omega) (by omega)]
    omega
  refine ⟨?_, ?_, ?_⟩
  · by_cases hneg : x < 0
    · simp only [normalizeChatID, if_pos hneg]
    · by_cases hbig : x > 1000000000
      · have h1' := key (by omega)
        rw [h1']
        have : (-(10 ^ 12 + x)) < 0 := by omega
        conv_lhs => rw [normalizeChatID, if_pos this]
      · simp only [normalizeChatID, if_neg hneg, if_neg hbig]
  · intro hneg
    simp only [normalizeChatID, if_pos hneg]
  · intro _ hx
    exact ⟨key hx, by rw [key hx]; omega⟩

/-- **C7 (witness for the amended theorem).**  Concrete instance at the
raw supergroup id `1750074031`. -/
theorem normalizeChatID_amended_witness :
    ((-2 ^ 63 ≤ (1750074031 : Int)) ∧ (1750074031 : Int) ≤ 2 ^ 63 - 10 ^ 12)
    ∧ (normalizeChatID (normalizeChatID 1750074031) = normalizeChatID 1750074031
       ∧ ((1750074031 : Int) < 0 → normalizeChatID 1750074031 = 1750074031)
       ∧ (0 ≤ (1750074031 : Int) → 10 ^ 9 < (1750074031 : Int) →
           normalizeChatID 1750074031 = -(10 ^ 12 + 1750074031)
           ∧ normalizeChatID 1750074031 < 0)) :=
  ⟨⟨by decide, by decide⟩,
   normalizeChatID_amended 1750074031 (by decide) (by decide)⟩

/-- Helper: incrementing the flash tier bumps the flash counter of the
`(userId, date)` row by one and leaves the pro counter alone. -/
theorem getDailyCounts_increment_flash (db : List DailyLimitRow)
    (userId : Int) (date : String) :
    getDailyCounts (increment_daily_limit db userId date "flash") userId date
      = ((getDailyCounts db userId date).1, (getDailyCounts db userId date).2 + 1) := by
  induction db with
  | nil => simp [increment_daily_limit, getDailyCounts]
  | cons row rest ih =>
      by_cases h : row.userId = userId ∧ row.date = date
      · simp [increment_daily_limit, getDailyCounts, h]
      · simp only [increment_daily_limit, if_neg h, if_neg (by decide : ¬ ("flash" = "pro"))]
        simp [getDailyCounts, h, ih]

/-- **C8 (counterexample).**  A quota-increment with the tier name
`"banana"` — neither tier name — does not fail: it increments the tier-B
(flash) counter, so the counters do change. -/
theorem incrementLimit_claim_counterexample :
    IncrementLimit [] 7 "2025-01-01" "banana"
      = [{ userId := 7, date := "2025-01-01",
           proRequestsCount := 0, flashRequestsCount := 1 }]
    ∧ getDailyCounts (IncrementLimit [] 7 "2025-01-01" "banana") 7 "2025-01-01"
        ≠ getDailyCounts [] 7 "2025-01-01" := by
  refine ⟨?_, ?_⟩ <;> decide

/-- **C8 (amended).**  A quota-increment whose tier name is neither the
tier-A nor the tier-B name succeeds and increments the tier-B (flash)
per-day counter by one, leaving the tier-A counter unchanged; no
`InvalidArgument` failure exists on this path. -/
theorem incrementLimit_amended (db : List DailyLimitRow)
    (userId : Int) (date : String) (modelType : String)
    (hA : modelType ≠ ModelPro) (hB : modelType ≠ ModelFlash) :
    getDailyCounts (IncrementLimit db userId date modelType) userId date
      = ((getDailyCounts db userId date).1, (getDailyCounts db userId date).2 + 1) := by
  unfold IncrementLimit
  rw [if_neg hA]
  exact getDailyCounts_increment_flash db userId date

/-- Helper: the entries written by the context loop stay within the
budget; only the omitted-rows marker (when present) is on top. -/
theorem contextLoop_length (fmtSim : ℚ → String) (now : Int) (maxLength : ℕ)
    (messages : List StoredMessage) :
    ∀ (i totalLength : ℕ), totalLength ≤ maxLength →
      (contextLoop fmtSim now maxLength messages i totalLength).length + totalLength
        ≤ maxLength + (contextMarker fmtSim now maxLength messages i totalLength).length := by
  induction messages with
  | nil =>
      intro i totalLength h
      simp [contextLoop, contextMarker]
      omega
  | cons msg rest ih =>
      intro i totalLength h
      by_cases hb : totalLength + (contextEntry fmtSim now i msg).length > maxLength
      · simp only [contextLoop, contextMarker, if_pos hb]
        omega
      · simp only [contextLoop, contextMarker, if_neg hb]
        rw [String.length_append]
        have := ih (i + 1) (totalLength + (contextEntry fmtSim now i msg).length)
          (by omega)
        omega

/-- **C3 (counterexample).**  With `max-context-chars = 0` and one
retrieved row, the rendered string contains the header and the final
newline on top of the marker, so its rune length exceeds
`max-context-chars` plus the trailing marker's length. -/
theorem formatContext_claim_counterexample :
    ¬ (FormatContext (fun _ => "0.90") 0 0 [{ firstName := "A", messageText := "hi" }]).length
        ≤ 0 + (contextMarker (fun _ => "0.90") 0 0
                [{ firstName := "A", messageText := "hi" }] 0 0).length := by
  decide

/-- **C3 (amended).**  For every similarity renderer, clock reading,
configured `max-context-chars` and list of retrieved rows, the rendered
context has rune length at most `max-context-chars` plus the header
length, plus the length of the trailing omitted-rows marker (empty when
nothing is omitted), plus one for the final newline. -/
theorem formatContext_amended (fmtSim : ℚ → String) (now : Int)
    (maxLength : ℕ) (messages : List StoredMessage) :
    (FormatContext fmtSim now maxLength messages).length
      ≤ maxLength + contextHeader.length
        + (contextMarker fmtSim now maxLength messages 0 0).length + 1 := by
  unfold FormatContext
  by_cases h : messages.isEmpty
  · rw [if_pos h]
    simp
  · rw [if_neg h]
    rw [String.length_append, String.length_append]
    have := contextLoop_length fmtSim now maxLength messages 0 0 (Nat.zero_le _)
    have h1 : ("\n" : String).length = 1 := rfl
    omega
/-- **C4.**  In the orchestrated answer path, the quota counter for the
chosen tier is incremented only after a successful generation: a failed
generation produces a trace without any quota-increment and leaves the
`daily_limits` table unchanged, and in every trace an increment can only
occur after the generation action. -/
theorem handleMention_commit_order (modelToUse : String)
    (llmResp : Except String String) (userId : Int) (date : String)
    (db : List DailyLimitRow) :
    ((∃ e, llmResp = Except.error e) →
      (∀ m, BotAction.incrementUsage m ∉ handleMentionGeneration modelToUse llmResp)
      ∧ quotaAfter userId date db (handleMentionGeneration modelToUse llmResp) = db)
    ∧ (∀ i m,
        (handleMentionGeneration modelToUse llmResp).get? i
            = some (BotAction.incrementUsage m) →
        ∃ j, j < i ∧ (handleMentionGeneration modelToUse llmResp).get? j
            = some BotAction.generateResponse) := by
  cases llmResp with
  | error e =>
      refine ⟨fun _ => ⟨?_, ?_⟩, ?_⟩
      · intro m hm
        simp [handleMentionGeneration] at hm
      · simp [handleMentionGeneration, quotaAfter, applyBotAction]
      · intro i m hm
        match i with
        | 0 => simp [handleMentionGeneration] at hm
        | 1 => simp [handleMentionGeneration] at hm
        | 2 => simp [handleMentionGeneration] at hm
        | n + 3 => simp [handleMentionGeneration] at hm
  | ok text =>
      refine ⟨fun he => ?_, ?_⟩
      · obtain ⟨e, he⟩ := he
        exact absurd he (by simp)
      · intro i m hm
        match i with
        | 0 => simp [handleMentionGeneration] at hm
        | 1 => exact ⟨0, by omega, rfl⟩
        | 2 => simp [handleMentionGeneration] at hm
        | 3 => simp [handleMentionGeneration] at hm
        | n + 4 => simp [handleMentionGeneration] at hm

/-- **C4 (witness).**  Concrete failed generation: no increment appears
and the table is unchanged. -/
theorem handleMention_commit_order_witness :
    (∀ m, BotAction.incrementUsage m
        ∉ handleMentionGeneration ModelPro (Except.error "boom"))
    ∧ quotaAfter 7 "2025-01-01" []
        (handleMentionGeneration ModelPro (Except.error "boom")) = [] :=
  (handleMention_commit_order ModelPro (Except.error "boom") 7 "2025-01-01" []).1
    ⟨"boom", rfl⟩

/-- Helper: the retry loop makes at most one api call per remaining
iteration. -/
theorem processBatchLoop_attempts_le (env : EmbedEnv) (texts : List String) :
    ∀ (l : List ℕ) (lastErr : Option String) (waits : List ℕ) (attempts : ℕ),
      (processBatchLoop env texts l lastErr waits attempts).attempts
        ≤ attempts + l.length := by
  intro l
  induction l with
  | nil => intro lastErr waits attempts; simp [processBatchLoop]
  | cons a rest ih =>
      intro lastErr waits attempts
      unfold processBatchLoop
      by_cases hd : a > 0 ∧ env.ctxDone a
      · rw [if_pos hd]
        simp
      · rw [if_neg hd]
        cases h : env.api a with
        | failure e =>
            dsimp only
            have := ih (some e)
              (if a > 0 then waits ++ [2 ^ (a - 1)] else waits) (attempts + 1)
            simp only [List.length_cons]
            omega
        | success embeddings =>
            dsimp only
            by_cases h1 : embeddings.any (fun emb => emb.isEmpty)
            · rw [if_pos h1]; simp
            · rw [if_neg h1]
              by_cases h2 : embeddings.length ≠ texts.length
              · rw [if_pos h2]; simp
              · rw [if_neg h2]; simp

/-- Helper: the completed waits are the waits of an executed prefix of
the remaining iterations. -/
theorem processBatchLoop_waits (env : EmbedEnv) (texts : List String) :
    ∀ (l : List ℕ) (lastErr : Option String) (waits : List ℕ) (attempts : ℕ),
      ∃ m, (processBatchLoop env texts l lastErr waits attempts).waits
        = waits ++ (l.take m).filterMap
            (fun a => if a > 0 then some (2 ^ (a - 1)) else none) := by
  intro l
  induction l with
  | nil =>
      intro lastErr waits attempts
      exact ⟨0, by simp [processBatchLoop]⟩
  | cons a rest ih =>
      intro lastErr waits attempts
      unfold processBatchLoop
      by_cases hd : a > 0 ∧ env.ctxDone a
      · rw [if_pos hd]
        exact ⟨0, by simp⟩
      · rw [if_neg hd]
        have hstep : (if a > 0 then waits ++ [2 ^ (a - 1)] else waits)
            = waits ++ ((if a > 0 then some (2 ^ (a - 1)) else none).toList) := by
          by_cases ha : a > 0 <;> simp [ha]
        have hone : ((a :: rest).take 1).filterMap
            (fun x => if x > 0 then some (2 ^ (x - 1)) else none)
            = (if a > 0 then some (2 ^ (a - 1)) else none).toList := by
          by_cases ha : a > 0 <;> simp [ha]
        cases h : env.api a with
        | failure e =>
            dsimp only
            obtain ⟨m, hm⟩ := ih (some e)
              (if a > 0 then waits ++ [2 ^ (a - 1)] else waits) (attempts + 1)
            refine ⟨m + 1, ?_⟩
            rw [hm, hstep]
            rw [List.take_succ_cons, List.filterMap_cons]
            by_cases ha : a > 0 <;> simp [ha]
        | success embeddings =>
            dsimp only
            refine ⟨1, ?_⟩
            by_cases h1 : embeddings.any (fun emb => emb.isEmpty)
            · rw [if_pos h1]
              rw [hstep, hone]
            · rw [if_neg h1]
              by_cases h2 : embeddings.length ≠ texts.length
              · rw [if_pos h2]
                rw [hstep, hone]
              · rw [if_neg h2]
                rw [hstep, hone]

/-- **C5 (counterexample).**  When the api fails on every attempt and the
context stays live, `processBatch` makes four `BatchEmbedContents`
calls — one initial attempt plus three retries — not three. -/
theorem processBatch_claim_counterexample :
    (processBatch { api := fun _ => .failure "boom", ctxDone := fun _ => false }
        ["t"]).attempts = 4
    ∧ ¬ (processBatch { api := fun _ => .failure "boom", ctxDone := fun _ => false }
        ["t"]).attempts ≤ 3 := by
  constructor
  · rfl
  · decide

/-- **C5 (amended).**  For every environment and batch: at most four
attempts are made; the completed waits are an in-order prefix of
`1 s, 2 s, 4 s`; and when the first `a` attempts fail and the context is
first observed cancelled during the wait before attempt `a` (`1 ≤ a ≤ 3`),
the wait is aborted at once: the call returns the context error after
exactly `a` api calls with only the earlier waits completed. -/
theorem processBatch_amended (env : EmbedEnv) (texts : List String) :
    (processBatch env texts).attempts ≤ 4
    ∧ (∃ n, (processBatch env texts).waits = [1, 2, 4].take n)
    ∧ (∀ a, 1 ≤ a → a ≤ 3 →
        (∀ b, b < a → ∃ e, env.api b = EmbedApiOutcome.failure e) →
        (∀ b, 1 ≤ b → b < a → env.ctxDone b = false) →
        env.ctxDone a = true →
        (processBatch env texts).result = Except.error EmbedError.ctxCancelled
        ∧ (processBatch env texts).attempts = a
        ∧ (processBatch env texts).waits = [1, 2, 4].take (a - 1)) := by
  refine ⟨?_, ?_, ?_⟩
  · have := processBatchLoop_attempts_le env texts [0, 1, 2, 3] none [] 0
    simpa [processBatch] using this
  · obtain ⟨m, hm⟩ := processBatchLoop_waits env texts [0, 1, 2, 3] none [] 0
    unfold processBatch
    rw [hm]
    match m with
    | 0 => exact ⟨0, by simp⟩
    | 1 => exact ⟨0, by simp⟩
    | 2 => exact ⟨1, by simp⟩
    | 3 => exact ⟨2, by simp⟩
    | n + 4 => exact ⟨3, by simp [List.take_succ_cons]⟩
  · intro a ha1 ha3 hfail hlive hdone
    interval_cases a
    · obtain ⟨e0, he0⟩ := hfail 0 (by omega)
      refine ⟨?_, ?_, ?_⟩ <;>
        simp [processBatch, processBatchLoop, he0, hdone]
    · obtain ⟨e0, he0⟩ := hfail 0 (by omega)
      obtain ⟨e1, he1⟩ := hfail 1 (by omega)
      have hc1 := hlive 1 (by omega) (by omega)
      refine ⟨?_, ?_, ?_⟩ <;>
        simp [processBatch, processBatchLoop, he0, he1, hc1, hdone]
    · obtain ⟨e0, he0⟩ := hfail 0 (by omega)
      obtain ⟨e1, he1⟩ := hfail 1 (by omega)
      obtain ⟨e2, he2⟩ := hfail 2 (by omega)
      have hc1 := hlive 1 (by omega) (by omega)
      have hc2 := hlive 2 (by omega) (by omega)
      refine ⟨?_, ?_, ?_⟩ <;>
        simp [processBatch, processBatchLoop, he0, he1, he2, hc1, hc2, hdone]

/-- **C5 (witness for the amended theorem).**  Concrete environment whose
context is cancelled during the first wait: the loop returns the context
error after one attempt with no completed wait. -/
theorem processBatch_amended_witness :
    (processBatch { api := fun _ => .failure "x", ctxDone := fun n => n == 1 }
        ["t"]).result = Except.error EmbedError.ctxCancelled
    ∧ (processBatch { api := fun _ => .failure "x", ctxDone := fun n => n == 1 }
        ["t"]).attempts = 1
    ∧ (processBatch { api := fun _ => .failure "x", ctxDone := fun n => n == 1 }
        ["t"]).waits = [1, 2, 4].take (1 - 1) :=
  (processBatch_amended
      { api := fun _ => .failure "x", ctxDone := fun n => n == 1 } ["t"]).2.2 1
    (by omega) (by omega)
    (fun b _ => ⟨"x", rfl⟩)
    (fun b hb1 hb2 => absurd (lt_of_le_of_lt hb1 hb2) (lt_irrefl 1))
    rfl

/-- Helper: every code point counts as at least one UTF-16 unit. -/
theorem utf16Units_pos (c : Char) : 1 ≤ utf16Units c := by
  unfold utf16Units
  split <;> omega

/-- Helper: UTF-16 length of a cons. -/
theorem utf16Len_cons (c : Char) (s : List Char) :
    utf16Len (c :: s) = utf16Units c + utf16Len s := by
  simp [utf16Len]

/-- Helper: UTF-8 length of a cons. -/
theorem utf8Len_cons (c : Char) (s : List Char) :
    utf8Len (c :: s) = c.utf8Size + utf8Len s := by
  simp [utf8Len]

/-- Helper: the scan loop walks over `pre` without firing (every
intermediate UTF-16 index is below the target), fires `startByte` at `c`,
and fires `endByte` right after `c` (or exits when `c` ends the string):
the byte positions it reports are the UTF-8 lengths of `pre` and of
`pre ++ [c]`. -/
theorem utf16Scan_locate (c : Char) (post : List Char) :
    ∀ (pre : List Char) (cur byte ts te : ℕ),
      ts = cur + utf16Len pre → te = ts + utf16Units c →
      utf16Scan ts te (pre ++ c :: post) cur byte none
        = (some (byte + utf8Len pre),
           match post with
           | [] => none
           | _ :: _ => some (byte + utf8Len pre + c.utf8Size),
           te, byte + utf8Len pre + c.utf8Size) := by
  intro pre
  induction pre with
  | nil =>
      intro cur byte ts te hts hte
      have hts' : ts = cur := by
        rw [hts]
        simp [utf16Len]
      have huc := utf16Units_pos c
      have h1 : (if (none : Option ℕ) = none ∧ cur ≥ ts then some byte else none)
          = some byte := if_pos ⟨rfl, by omega⟩
      have h2 : ¬ ((some byte : Option ℕ) ≠ none ∧ cur ≥ te) := by
        intro hc
        omega
      rw [List.nil_append, utf16Scan, h1, if_neg h2]
      cases post with
      | nil =>
          rw [utf16Scan]
          simp [utf8Len, hte, hts']
      | cons p ps =>
          have h3 : (if (some byte : Option ℕ) = none ∧ cur + utf16Units c ≥ ts
              then some (byte + c.utf8Size) else some byte) = some byte := by
            rw [if_neg]
            intro hc
            exact Option.some_ne_none byte hc.1
          have h4 : (some byte : Option ℕ) ≠ none ∧ cur + utf16Units c ≥ te :=
            ⟨Option.some_ne_none byte, by omega⟩
          rw [utf16Scan, h3, if_pos h4]
          simp [utf8Len, hte, hts']
  | cons d pre' ih =>
      intro cur byte ts te hts hte
      have hd1 := utf16Units_pos d
      have hpre : ts = (cur + utf16Units d) + utf16Len pre' := by
        rw [hts, utf16Len_cons]
        omega
      have h1 : (if (none : Option ℕ) = none ∧ cur ≥ ts then some byte else none)
          = none := by
        rw [if_neg]
        intro hc
        omega
      have h2 : ¬ ((none : Option ℕ) ≠ none ∧ cur ≥ te) := by
        intro hc
        exact hc.1 rfl
      rw [List.cons_append, utf16Scan, h1, if_neg h2]
      rw [ih (cur + utf16Units d) (byte + d.utf8Size) ts te hpre hte]
      rw [utf8Len_cons]
      cases post with
      | nil => simp [Nat.add_assoc]
      | cons p ps => simp [Nat.add_assoc]

/-- Helper: the UTF-16 offset of a code point translates to its UTF-8
byte offset: for every decomposition `pre ++ c :: post` of the text, the
entity range starting at the UTF-16 length of `pre` with the width of `c`
maps to the byte range of `c`. -/
theorem utf16RangeToByteRange_locate (pre : List Char) (c : Char)
    (post : List Char) :
    utf16RangeToByteRange (pre ++ c :: post) (utf16Len pre) (utf16Units c)
      = ((utf8Len pre : Int), (utf8Len pre + c.utf8Size : Int)) := by
  unfold utf16RangeToByteRange
  rw [if_neg (by
    push_neg
    exact ⟨Int.natCast_nonneg _, Int.natCast_nonneg _⟩)]
  dsimp only
  rw [Int.toNat_natCast, Int.toNat_natCast]
  rw [utf16Scan_locate c post pre 0 0 (utf16Len pre) (utf16Len pre + utf16Units c)
    (by omega) rfl]
  cases post with
  | nil =>
      dsimp only
      rw [if_pos (le_refl _)]
      simp only [Nat.zero_add, Prod.mk.injEq]
      constructor <;> push_cast <;> ring
  | cons p ps =>
      dsimp only
      simp only [Nat.zero_add, Prod.mk.injEq]
      constructor <;> push_cast <;> ring

/-- Helper: on a text beginning `"@bot "`, the mention entity at UTF-16
range `(0, 4)` extracts exactly `"@bot"`, whatever follows the space. -/
theorem extractEntity_at_bot (suffix : List Char) :
    extractEntityText ('@' :: 'b' :: 'o' :: 't' :: ' ' :: suffix) 0 4
      = ['@', 'b', 'o', 't'] := by
  have hlen : (utf8Len ('@' :: 'b' :: 'o' :: 't' :: ' ' :: suffix) : Int)
      = 5 + (utf8Len suffix : Int) := by
    have e1 : ('@').utf8Size = 1 := rfl
    have e2 : ('b').utf8Size = 1 := rfl
    have e3 : ('o').utf8Size = 1 := rfl
    have e4 : ('t').utf8Size = 1 := rfl
    have e5 : (' ').utf8Size = 1 := rfl
    simp [utf8Len_cons, e1, e2, e3, e4, e5]
    push_cast
    ring
  unfold extractEntityText
  rw [show utf16RangeToByteRange ('@' :: 'b' :: 'o' :: 't' :: ' ' :: suffix) 0 4
      = ((0 : Int), (4 : Int)) from rfl]
  dsimp only
  rw [if_neg (by
    push_neg
    refine ⟨by norm_num, by norm_num, by norm_num, ?_⟩
    rw [hlen]
    have : (0 : Int) ≤ (utf8Len suffix : Int) := Int.natCast_nonneg _
    omega)]
  rw [if_neg (by
    rw [hlen]
    have : (0 : Int) ≤ (utf8Len suffix : Int) := Int.natCast_nonneg _
    omega)]
  rfl

/-- **C9.**  Mention detection and UTF-16 offset translation: (1) for a
message whose text is `"@bot "` followed by any suffix — in particular one
containing non-BMP runes — carrying a `mention` entity at UTF-16 offset 0
and length 4, `isMentioned` returns `true` for the handle `"bot"`,
whatever the bot's own id; and (2) the offset translation counts one
UTF-16 unit per BMP code point and two per supplementary-plane code point
when converting entity offsets to byte positions: the UTF-16 prefix
length of the text maps to the UTF-8 byte prefix length. -/
theorem isMentioned_utf16_correct :
    (∀ (selfId : Int) (suffix : List Char),
      isMentioned selfId ['b', 'o', 't']
        { text := '@' :: 'b' :: 'o' :: 't' :: ' ' :: suffix,
          entities := [{ entityType := "mention", offset := 0, length := 4 }] }
        = true)
    ∧ (∀ (pre : List Char) (c : Char) (post : List Char),
        utf16RangeToByteRange (pre ++ c :: post) (utf16Len pre) (utf16Units c)
          = ((utf8Len pre : Int), (utf8Len pre + c.utf8Size : Int))) := by
  refine ⟨fun selfId suffix => ?_, utf16RangeToByteRange_locate⟩
  have h := extractEntity_at_bot suffix
  unfold isMentioned
  dsimp only [List.any_cons, List.any_nil]
  rw [if_pos rfl]
  rw [h]
  rfl

/-- Helper: every returned search row comes from a table row passing the
WHERE clause, with the similarity column filled in. -/
theorem mem_search_similar_messages (dist : List ℚ → List ℚ → ℚ)
    (table : List StoredMessage) (q : List ℚ) (floor : ℚ) (k : ℕ)
    (target : Option Int) (r : StoredMessage)
    (hr : r ∈ search_similar_messages dist table q floor k target) :
    ∃ cm, cm ∈ table ∧ searchMatches dist q floor target cm = true
      ∧ r = { cm with similarity := 1 - dist (cm.embedding.getD []) q } := by
  unfold search_similar_messages at hr
  obtain ⟨cm, hcm, rfl⟩ := List.mem_map.mp hr
  have h1 := List.take_subset k _ hcm
  have h2 := (List.mem_insertionSort _).mp h1
  exact ⟨cm, List.mem_of_mem_filter h2, List.of_mem_filter h2, rfl⟩

/-- Helper: the returned rows are sorted by non-increasing similarity. -/
theorem search_similar_messages_sorted (dist : List ℚ → List ℚ → ℚ)
    (table : List StoredMessage) (q : List ℚ) (floor : ℚ) (k : ℕ)
    (target : Option Int) :
    (search_similar_messages dist table q floor k target).Pairwise
      (fun a b => b.similarity ≤ a.similarity) := by
  unfold search_similar_messages
  set key := fun cm : StoredMessage => dist (cm.embedding.getD []) q with hkey
  haveI : IsTotal StoredMessage (fun a b => key a ≤ key b) :=
    ⟨fun a b => le_total _ _⟩
  haveI : IsTrans StoredMessage (fun a b => key a ≤ key b) :=
    ⟨fun _ _ _ hab hbc => le_trans hab hbc⟩
  have hs : ((table.filter (searchMatches dist q floor target)).insertionSort
      (fun a b => key a ≤ key b)).Sorted (fun a b => key a ≤ key b) :=
    List.sorted_insertionSort _ _
  have ht : (((table.filter (searchMatches dist q floor target)).insertionSort
      (fun a b => key a ≤ key b)).take k).Sorted (fun a b => key a ≤ key b) :=
    List.Pairwise.sublist (List.take_sublist k _) hs
  exact ht.map _ (fun a b hab => by
    simp only []
    linarith)

/-- **C2.**  For every distance function, table, query vector, floor, `k`
and chat scope: every row returned by the Go `SearchSimilarMessages` has
`1 - cosine_distance(query, row.embedding) ≥ floor` (and carries exactly
that value in its similarity column), at most `k` rows are returned, and
the rows are ordered by non-increasing similarity. -/
theorem searchSimilarMessages_correct (dist : List ℚ → List ℚ → ℚ)
    (table : List StoredMessage) (q : List ℚ) (floor : ℚ) (k : ℕ)
    (chatID : Int) :
    (∀ r ∈ SearchSimilarMessages dist table q floor k chatID,
        floor ≤ 1 - dist (r.embedding.getD []) q
        ∧ r.similarity = 1 - dist (r.embedding.getD []) q)
    ∧ (SearchSimilarMessages dist table q floor k chatID).length ≤ k
    ∧ (SearchSimilarMessages dist table q floor k chatID).Pairwise
        (fun a b => b.similarity ≤ a.similarity) := by
  refine ⟨?_, ?_, ?_⟩
  · intro r hr
    obtain ⟨cm, -, hmatch, rfl⟩ :=
      mem_search_similar_messages dist table q floor k _ r hr
    have hth : decide (floor ≤ 1 - dist (cm.embedding.getD []) q) = true := by
      unfold searchMatches at hmatch
      exact (Bool.and_eq_true _ _ |>.mp hmatch).2
    exact ⟨of_decide_eq_true hth, rfl⟩
  · unfold SearchSimilarMessages search_similar_messages
    rw [List.length_map, List.length_take]
    exact min_le_left _ _
  · exact search_similar_messages_sorted dist table q floor k _

/-- **C2 (witness).**  Concrete search over a one-row table with a
constant-zero distance: the returned row is in the result and satisfies
the floor. -/
theorem searchSimilarMessages_correct_witness :
    (({ chatId := 9, indexed := true, embedding := some [1], similarity := 1 - 0 } : StoredMessage)
        ∈ SearchSimilarMessages (fun _ _ => 0)
            [{ chatId := 9, indexed := true, embedding := some [1] }] [1] (1/2) 5 9)
    ∧ ((1 : ℚ)/2 ≤ 1 - 0
       ∧ ({ chatId := 9, indexed := true, embedding := some [1],
            similarity := 1 - 0 } : StoredMessage).similarity = 1 - 0) :=
  ⟨by norm_num [SearchSimilarMessages, search_similar_messages, searchMatches,
      List.insertionSort, List.orderedInsert],
   (searchSimilarMessages_correct (fun _ _ => 0)
      [{ chatId := 9, indexed := true, embedding := some [1] }] [1] (1/2) 5 9).1 _
      (by norm_num [SearchSimilarMessages, search_similar_messages, searchMatches,
        List.insertionSort, List.orderedInsert])⟩

/-- **C10.**  Calling the Go search with chat-scope id `0` omits the chat
filter: the call equals the store query with `target_chat_id = NULL`, and
rows from different chats can both be returned (shown on a concrete
two-chat table); for every non-zero id, all returned rows carry that
chat id. -/
theorem searchSimilarMessages_chat_scope
    (dist : List ℚ → List ℚ → ℚ) (table : List StoredMessage)
    (q : List ℚ) (floor : ℚ) (k : ℕ) (chatID : Int) (hchat : chatID ≠ 0) :
    SearchSimilarMessages dist table q floor k 0
      = search_similar_messages dist table q floor k none
    ∧ (∀ r ∈ SearchSimilarMessages dist table q floor k chatID,
        r.chatId = chatID)
    ∧ (SearchSimilarMessages (fun _ _ => 0)
        [{ chatId := 1, indexed := true, embedding := some [1] },
         { chatId := 2, indexed := true, embedding := some [1] }]
        [1] (1/2) 5 0).map StoredMessage.chatId = [1, 2] := by
  refine ⟨?_, ?_, ?_⟩
  · unfold SearchSimilarMessages
    norm_num
  · intro r hr
    unfold SearchSimilarMessages at hr
    rw [if_pos hchat] at hr
    obtain ⟨cm, -, hmatch, rfl⟩ :=
      mem_search_similar_messages dist table q floor k _ r hr
    unfold searchMatches at hmatch
    have := (Bool.and_eq_true _ _ |>.mp
      (Bool.and_eq_true _ _ |>.mp hmatch).1).2
    simpa using this
  · norm_num [SearchSimilarMessages, search_similar_messages, searchMatches,
      List.insertionSort, List.orderedInsert]

/-- **C10 (witness).**  The per-chat restriction at the concrete non-zero
id `-1001750074031` on a two-chat table. -/
theorem searchSimilarMessages_chat_scope_witness :
    ((-1001750074031 : Int) ≠ 0)
    ∧ ({ chatId := -1001750074031, indexed := true, embedding := some [1],
         similarity := 1 - 0 } : StoredMessage).chatId = -1001750074031 :=
  ⟨by decide,
   (searchSimilarMessages_chat_scope (fun _ _ => 0)
      [{ chatId := -1001750074031, indexed := true, embedding := some [1] },
       { chatId := 2, indexed := true, embedding := some [1] }]
      [1] (1/2) 5 (-1001750074031) (by decide)).2.1 _
      (by norm_num [SearchSimilarMessages, search_similar_messages, searchMatches,
        List.insertionSort, List.orderedInsert])⟩

/-- Helper: one step of the `GetMostActiveUser` scan. -/
theorem mostActiveScan_cons (first c : UserMessageCount)
    (rest : List UserMessageCount) :
    mostActiveScan first (c :: rest)
      = mostActiveScan (if c.messageCount > first.messageCount then c else first) rest :=
  rfl

/-- Helper: the winner of the `GetMostActiveUser` scan is one of the
scanned entries. -/
theorem mostActiveScan_mem (rest : List UserMessageCount)
    (first : UserMessageCount) :
    mostActiveScan first rest ∈ first :: rest := by
  induction rest generalizing first with
  | nil => simp [mostActiveScan]
  | cons c rest ih =>
      rw [mostActiveScan_cons]
      by_cases hc : c.messageCount > first.messageCount
      · rw [if_pos hc]
        rcases List.mem_cons.mp (ih c) with h | h
        · rw [h]; simp
        · exact List.mem_cons.mpr (Or.inr (List.mem_cons.mpr (Or.inr h)))
      · rw [if_neg hc]
        rcases List.mem_cons.mp (ih first) with h | h
        · rw [h]; simp
        · exact List.mem_cons.mpr (Or.inr (List.mem_cons.mpr (Or.inr h)))

/-- Helper: the winner of the scan has a maximal count among the scanned
entries. -/
theorem mostActiveScan_max (rest : List UserMessageCount)
    (first : UserMessageCount) :
    ∀ c ∈ first :: rest, c.messageCount ≤ (mostActiveScan first rest).messageCount := by
  induction rest generalizing first with
  | nil =>
      intro c hc
      rcases List.mem_cons.mp hc with h | h
      · simp [mostActiveScan, h]
      · simp at h
  | cons d rest ih =>
      intro c hc
      rw [mostActiveScan_cons]
      have step : first.messageCount ≤ (if d.messageCount > first.messageCount then d else first).messageCount
          ∧ d.messageCount ≤ (if d.messageCount > first.messageCount then d else first).messageCount := by
        by_cases hd : d.messageCount > first.messageCount
        · rw [if_pos hd]; omega
        · rw [if_neg hd]; omega
      rcases List.mem_cons.mp hc with h | h
      · subst h
        exact le_trans step.1
          (ih _ _ (List.mem_cons_self _ _))
      · rcases List.mem_cons.mp h with h' | h'
        · subst h'
          exact le_trans step.2 (ih _ _ (List.mem_cons_self _ _))
        · exact ih _ _ (List.mem_cons.mpr (Or.inr h'))

/-- Helper: bumping for message `m` changes only the count recorded for
`m.userId`, by one. -/
theorem countOf_bumpUserCount (acc : List UserMessageCount)
    (m : StoredMessage) (a : Int) :
    countOf (bumpUserCount acc m) a
      = countOf acc a + (if m.userId = a then 1 else 0) := by
  induction acc with
  | nil =>
      by_cases h : m.userId = a <;>
        simp [bumpUserCount, countOf, h]
  | cons c rest ih =>
      by_cases hcm : c.userId = m.userId
      · simp only [bumpUserCount, if_pos hcm]
        by_cases hca : c.userId = a
        · have : m.userId = a := by rw [← hcm]; exact hca
          simp [countOf, hca, this]
        · have : ¬ m.userId = a := fun hma => hca (by rw [hcm]; exact hma)
          simp [countOf, hca, this]
      · simp only [bumpUserCount, if_neg hcm]
        by_cases hca : c.userId = a
        · have : ¬ m.userId = a := fun hma => hcm (by rw [hca, hma])
          simp [countOf, hca, this]
        · simp [countOf, hca, ih]

/-- Helper: after folding the counting loop over the messages, the count
recorded for `a` is the starting count plus the number of messages by
`a`. -/
theorem countOf_foldl_bump (messages : List StoredMessage)
    (acc : List UserMessageCount) (a : Int) :
    countOf (messages.foldl bumpUserCount acc) a
      = countOf acc a + countMessagesBy a messages := by
  induction messages generalizing acc with
  | nil => simp [countMessagesBy]
  | cons m rest ih =>
      rw [List.foldl_cons, ih]
      rw [countOf_bumpUserCount]
      have : countMessagesBy a (m :: rest)
          = (if m.userId = a then 1 else 0) + countMessagesBy a rest := by
        by_cases h : m.userId = a <;>
          simp [countMessagesBy, List.filter_cons, h] <;> omega
      rw [this]
      omega

/-- Helper: entries produced by the bump carry an author id already in the
accumulator or the bumped message's author id. -/
theorem mem_bumpUserCount_userId (acc : List UserMessageCount)
    (m : StoredMessage) (x : UserMessageCount)
    (hx : x ∈ bumpUserCount acc m) :
    x.userId = m.userId ∨ ∃ y ∈ acc, y.userId = x.userId := by
  induction acc with
  | nil =>
      simp only [bumpUserCount, List.mem_singleton] at hx
      exact Or.inl (by rw [hx])
  | cons c rest ih =>
      by_cases hcm : c.userId = m.userId
      · simp only [bumpUserCount, if_pos hcm, List.mem_cons] at hx
        rcases hx with h | h
        · exact Or.inr ⟨c, List.mem_cons_self _ _, by rw [h]⟩
        · exact Or.inr ⟨x, List.mem_cons.mpr (Or.inr h), rfl⟩
      · simp only [bumpUserCount, if_neg hcm, List.mem_cons] at hx
        rcases hx with h | h
        · exact Or.inr ⟨c, List.mem_cons_self _ _, by rw [h]⟩
        · rcases ih h with h' | ⟨y, hy, hy'⟩
          · exact Or.inl h'
          · exact Or.inr ⟨y, List.mem_cons.mpr (Or.inr hy), hy'⟩

/-- Helper: the counting loop never records one author twice. -/
theorem pairwise_bumpUserCount (acc : List UserMessageCount)
    (m : StoredMessage)
    (h : acc.Pairwise (fun c₁ c₂ => c₁.userId ≠ c₂.userId)) :
    (bumpUserCount acc m).Pairwise (fun c₁ c₂ => c₁.userId ≠ c₂.userId) := by
  induction acc with
  | nil => simp [bumpUserCount]
  | cons c rest ih =>
      rcases List.pairwise_cons.mp h with ⟨hc, hrest⟩
      by_cases hcm : c.userId = m.userId
      · simp only [bumpUserCount, if_pos hcm]
        exact List.pairwise_cons.mpr ⟨hc, hrest⟩
      · simp only [bumpUserCount, if_neg hcm]
        refine List.pairwise_cons.mpr ⟨?_, ih hrest⟩
        intro x hx
        rcases mem_bumpUserCount_userId rest m x hx with h' | ⟨y, hy, hy'⟩
        · rw [h']; exact hcm
        · rw [← hy']; exact hc y hy

/-- Helper: distinct author ids survive the whole fold. -/
theorem pairwise_foldl_bump (messages : List StoredMessage)
    (acc : List UserMessageCount)
    (h : acc.Pairwise (fun c₁ c₂ => c₁.userId ≠ c₂.userId)) :
    (messages.foldl bumpUserCount acc).Pairwise
      (fun c₁ c₂ => c₁.userId ≠ c₂.userId) := by
  induction messages generalizing acc with
  | nil => exact h
  | cons m rest ih => exact ih _ (pairwise_bumpUserCount acc m h)

/-- Helper: in a duplicate-free counts slice, the recorded count of a
member is its own count field. -/
theorem countOf_of_mem (acc : List UserMessageCount)
    (h : acc.Pairwise (fun c₁ c₂ => c₁.userId ≠ c₂.userId))
    (c : UserMessageCount) (hc : c ∈ acc) :
    countOf acc c.userId = c.messageCount := by
  induction acc with
  | nil => simp at hc
  | cons d rest ih =>
      rcases List.pairwise_cons.mp h with ⟨hd, hrest⟩
      rcases List.mem_cons.mp hc with h' | h'
      · subst h'
        simp [countOf]
      · have : ¬ d.userId = c.userId := hd c h'
        simp only [countOf, if_neg this]
        exact ih hrest h'

/-- Helper: a recorded count is zero or belongs to some entry. -/
theorem countOf_cases (acc : List UserMessageCount) (a : Int) :
    countOf acc a = 0
    ∨ ∃ c ∈ acc, c.userId = a ∧ countOf acc a = c.messageCount := by
  induction acc with
  | nil => exact Or.inl rfl
  | cons c rest ih =>
      by_cases h : c.userId = a
      · exact Or.inr ⟨c, List.mem_cons_self _ _, h, by simp [countOf, h]⟩
      · rcases ih with h' | ⟨d, hd, hd', hd''⟩
        · exact Or.inl (by simp [countOf, h, h'])
        · exact Or.inr ⟨d, List.mem_cons.mpr (Or.inr hd), hd', by simp [countOf, h, hd'']⟩

/-- **C6 (counterexample).**  For the day's messages
`[author 5, author 3]` — both with one message, so both attain the
maximum — the scan (over the first-appearance enumeration of the Go map,
one of its admissible iteration orders) keeps the first-enumerated
author `5`, not the smaller id `3`. -/
theorem getMostActiveUser_claim_counterexample :
    GetMostActiveUser [{ userId := 5 }, { userId := 3 }]
      = some { userId := 5, username := "", firstName := "", messageCount := 1 }
    ∧ countMessagesBy 3 [{ userId := 5 }, { userId := 3 }]
        = countMessagesBy 5 [{ userId := 5 }, { userId := 3 }]
    ∧ (3 : Int) < 5 := by
  refine ⟨?_, ?_, ?_⟩ <;> decide

/-- **C6 (amended).**  For every day's message set, `GetMostActiveUser`
returns an author attaining the maximum message count for that day; when
several authors are tied it keeps the first one in the (unspecified)
enumeration order of the per-user count map, not necessarily the one with
the smallest author id. -/
theorem getMostActiveUser_amended (messages : List StoredMessage)
    (h : messages ≠ []) :
    ∃ u, GetMostActiveUser messages = some u
      ∧ u ∈ GetUserMessageCounts messages
      ∧ u.messageCount = countMessagesBy u.userId messages
      ∧ ∀ a : Int, countMessagesBy a messages ≤ u.messageCount := by
  obtain ⟨m, rest, rfl⟩ := List.exists_cons_of_ne_nil h
  have hnonempty : GetUserMessageCounts (m :: rest) ≠ [] := by
    intro hempty
    have h1 : countOf (GetUserMessageCounts (m :: rest)) m.userId
        = countMessagesBy m.userId (m :: rest) := by
      unfold GetUserMessageCounts
      rw [countOf_foldl_bump]
      simp [countOf]
    rw [hempty] at h1
    simp only [countOf] at h1
    have hpos : 0 < ((m :: rest).filter (fun x => x.userId = m.userId)).length :=
      List.length_pos.mpr (List.ne_nil_of_mem
        (List.mem_filter.mpr ⟨List.mem_cons_self _ _, by simp⟩))
    unfold countMessagesBy at h1
    omega
  set counts := GetUserMessageCounts (m :: rest) with hcounts
  obtain ⟨c, crest, hc⟩ := List.exists_cons_of_ne_nil hnonempty
  refine ⟨mostActiveScan c crest, ?_, ?_, ?_, ?_⟩
  · unfold GetMostActiveUser
    rw [← hcounts, hc]
  · rw [hc]; exact mostActiveScan_mem crest c
  · have hpw : counts.Pairwise (fun c₁ c₂ => c₁.userId ≠ c₂.userId) :=
      pairwise_foldl_bump (m :: rest) [] (by simp)
    have hmem : mostActiveScan c crest ∈ counts := by
      rw [hc]; exact mostActiveScan_mem crest c
    have h1 := countOf_of_mem counts hpw (mostActiveScan c crest) hmem
    have h2 : countOf counts (mostActiveScan c crest).userId
        = countMessagesBy (mostActiveScan c crest).userId (m :: rest) := by
      rw [hcounts]
      unfold GetUserMessageCounts
      rw [countOf_foldl_bump]
      simp [countOf]
    rw [← h1, h2]
  · intro a
    have huc : (mostActiveScan c crest).messageCount
        = countMessagesBy (mostActiveScan c crest).userId (m :: rest) := by
      have hpw : counts.Pairwise (fun c₁ c₂ => c₁.userId ≠ c₂.userId) :=
        pairwise_foldl_bump (m :: rest) [] (by simp)
      have hmem : mostActiveScan c crest ∈ counts := by
        rw [hc]; exact mostActiveScan_mem crest c
      have h1 := countOf_of_mem counts hpw (mostActiveScan c crest) hmem
      have h2 : countOf counts (mostActiveScan c crest).userId
          = countMessagesBy (mostActiveScan c crest).userId (m :: rest) := by
        rw [hcounts]
        unfold GetUserMessageCounts
        rw [countOf_foldl_bump]
        simp [countOf]
      rw [← h1, h2]
    have hca : countMessagesBy a (m :: rest) = countOf counts a := by
      rw [hcounts]
      unfold GetUserMessageCounts
      rw [countOf_foldl_bump]
      simp [countOf]
    rw [hca]
    rcases countOf_cases counts a with h0 | ⟨d, hd, _, hd''⟩
    · rw [h0, huc]
      unfold countMessagesBy
      positivity
    · rw [hd'']
      have : d ∈ c :: crest := by rw [← hc]; exact hd
      exact mostActiveScan_max crest c d this

/-- **C6 (witness for the amended theorem).**  Concrete instance on a
three-message day. -/
theorem getMostActiveUser_amended_witness :
    (([{ userId := 4 }, { userId := 9 }, { userId := 9 }] : List StoredMessage) ≠ [])
    ∧ ∃ u, GetMostActiveUser [{ userId := 4 }, { userId := 9 }, { userId := 9 }] = some u
        ∧ u ∈ GetUserMessageCounts [{ userId := 4 }, { userId := 9 }, { userId := 9 }]
        ∧ u.messageCount
            = countMessagesBy u.userId [{ userId := 4 }, { userId := 9 }, { userId := 9 }]
        ∧ ∀ a : Int,
            countMessagesBy a [{ userId := 4 }, { userId := 9 }, { userId := 9 }]
              ≤ u.messageCount :=
  ⟨by decide, getMostActiveUser_amended _ (by decide)⟩

/-- **C8 (witness for the amended theorem).**  Concrete instance with the
tier name `"banana"` on an empty table. -/
theorem incrementLimit_amended_witness :
    (("banana" ≠ ModelPro) ∧ ("banana" ≠ ModelFlash))
    ∧ getDailyCounts (IncrementLimit [] 7 "2025-01-01" "banana") 7 "2025-01-01"
        = ((getDailyCounts ([] : List DailyLimitRow) 7 "2025-01-01").1,
           (getDailyCounts ([] : List DailyLimitRow) 7 "2025-01-01").2 + 1) :=
  ⟨⟨by decide, by decide⟩,
   incrementLimit_amended [] 7 "2025-01-01" "banana" (by decide) (by decide)⟩

end GamingChatBot
